import Mathlib

/-!
Verification of the hybrid privacy-preserving federated learning program
(fed.py): a shallow embedding of its data model and operations. The Paillier
cryptosystem primitives come from the external phe package, which is not part
of the repository source; those primitives are modelled from the
specification of the HomomorphicCipher component (a ciphertext carries the
number it encodes together with the randomness drawn at encryption time,
homomorphic addition adds the encoded numbers, decryption recovers the
encoded number). Everything else is translated from src/fed.py.

Numeric values are carried by an arbitrary type R with the arithmetic
operations the program uses; the theorems instantiate R with the rationals
(exact real arithmetic) and, for the numeric-instability analysis, with FP,
rationals extended with a propagating non-finite value as in IEEE floats.
-/

/-- Modelled from the spec: a Paillier ciphertext encodes exactly one number
(the payload recovered by decryption) and carries the randomness drawn when
it was produced, so that encryption is probabilistic. The phe package
implementing the cryptosystem is not part of the repository source. -/
structure Ciphertext (R : Type) where
  payload : R
  rand : ℕ
  deriving DecidableEq

/-- Modelled from the spec: encryption of one number under a public key,
drawing fresh randomness r for this call. -/
def encrypt {R : Type} (pk : ℕ) (v : R) (r : ℕ) : Ciphertext R :=
  ⟨v, r⟩

/-- Modelled from the spec: decryption with the private key recovers the
encoded number. -/
def decrypt {R : Type} (sk : ℕ) (c : Ciphertext R) : R :=
  c.payload

/-- Modelled from the spec: homomorphic addition of two ciphertexts; the
result encodes the sum of the encoded numbers, with randomness some function
of both inputs. -/
def cAdd {R : Type} [Add R] (a b : Ciphertext R) : Ciphertext R :=
  ⟨a.payload + b.payload, Nat.pair a.rand b.rand⟩

/-- Modelled from the spec: homomorphic division of a ciphertext by a known
plain integer, as used by the server on the summed ciphertext. -/
def cDivNat {R : Type} [Div R] [NatCast R] (a : Ciphertext R) (n : ℕ) : Ciphertext R :=
  ⟨a.payload / (n : R), a.rand⟩

/-- Sum of a list of numbers, as numpy sum computes it. -/
def lsum {R : Type} [Add R] [Zero R] : List R → R
  | [] => 0
  | a :: l => a + lsum l

/-- numpy dot product of two vectors, row.dot(w). -/
def npDot {R : Type} [Add R] [Zero R] [Mul R] (a b : List R) : R :=
  lsum (List.zipWith (fun x y => x * y) a b)

/-- numpy dot of a vector with a matrix, delta.dot(X): for each column j of
X, the sum over rows i of delta i * X i j. -/
def vecMatDot {R : Type} [Add R] [Zero R] [Mul R] (delta : List R) (X : List (List R)) :
    List R :=
  (List.range X.headI.length).map (fun j =>
    lsum (List.zipWith (fun d row => d * row.getD j 0) delta X))

/-- fed.py encrypt_vector: encrypt each coordinate under the public key;
every scalar encryption draws fresh randomness, modelled as successive
tokens starting at r. -/
def encrypt_vector {R : Type} (pk : ℕ) : List R → ℕ → List (Ciphertext R)
  | [], _ => []
  | v :: vs, r => encrypt pk v r :: encrypt_vector pk vs (r + 1)

/-- fed.py decrypt_vector: decrypt each coordinate with the private key. -/
def decrypt_vector {R : Type} (sk : ℕ) (x : List (Ciphertext R)) : List R :=
  x.map (fun c => decrypt sk c)

/-- fed.py sum_encrypted_vectors: raise ValueError when the lengths differ,
otherwise the numpy element-wise homomorphic sum x + y. -/
def sum_encrypted_vectors {R : Type} [Add R] (x y : List (Ciphertext R)) :
    Except String (List (Ciphertext R)) :=
  if x.length ≠ y.length then .error "Encrypted vectors must have the same size"
  else .ok (List.zipWith cAdd x y)

/-- numpy np.sum(gradients, axis=0): element-wise sum of a list of
ciphertext vectors. -/
def np_sum_axis0 {R : Type} [Add R] : List (List (Ciphertext R)) → List (Ciphertext R)
  | [] => []
  | v :: vs => vs.foldl (fun acc g => List.zipWith cAdd acc g) v

/-- Modelled from the spec: paillier key generation must reject key strengths
below the safe minimum of 1024 bits with KeyGenerationError; the phe function
generate_paillier_keypair called at fed.py:146 is not part of the repository
source. The keys themselves are opaque tokens in this model. -/
def generate_paillier_keypair (key_length : ℕ) : Except String (ℕ × ℕ) :=
  if key_length < 1024 then .error "KeyGenerationError"
  else .ok (key_length, key_length)

/-- fed.py Server: the private key holder, with the client count fixed at
construction. -/
structure Server where
  pubkey : ℕ
  privkey : ℕ
  n_clients : ℕ
  deriving DecidableEq

/-- fed.py Server.__init__: generate the keypair and record n_clients. -/
def Server.init (key_length n_clients : ℕ) : Except String Server :=
  match generate_paillier_keypair key_length with
  | .error e => .error e
  | .ok kp => .ok ⟨kp.1, kp.2, n_clients⟩

/-- fed.py Server.aggregate_gradients: np.sum(gradients, axis=0) divided by
the n_clients recorded at construction. -/
def Server.aggregate_gradients {R : Type} [Add R] [Div R] [NatCast R] (s : Server)
    (gradients : List (List (Ciphertext R))) : List (Ciphertext R) :=
  (np_sum_axis0 gradients).map (fun c => cDivNat c s.n_clients)

/-- fed.py Server.decrypt_gradient. -/
def Server.decrypt_gradient {R : Type} (s : Server) (gradient : List (Ciphertext R)) :
    List R :=
  decrypt_vector s.privkey gradient

/-- fed.py Net: the linear model, holding one party's data and weights. -/
structure Net (R : Type) where
  X : List (List R)
  y : List R
  weights : List R
  deriving DecidableEq

/-- fed.py Net.__init__: store the data; the weights start at zero, with
length X.shape[1], the column count of X. -/
def Net.init {R : Type} [Zero R] (X : List (List R)) (y : List R) : Net R :=
  ⟨X, y, List.replicate X.headI.length 0⟩

/-- fed.py Net.predict: X.dot(weights). -/
def Net.predict {R : Type} [Add R] [Zero R] [Mul R] (net : Net R) (X : List (List R)) :
    List R :=
  X.map (fun row => npDot row net.weights)

/-- fed.py Net.compute_gradient: delta = predict(X) - y, then
delta.dot(X) / len(X). -/
def Net.compute_gradient {R : Type} [Add R] [Zero R] [Mul R] [Sub R] [Div R] [NatCast R]
    (net : Net R) : List R :=
  (vecMatDot (List.zipWith (fun a b => a - b) (net.predict net.X) net.y) net.X).map
    (fun v => v / (net.X.length : R))

/-- fed.py Net.gradient_step: weights -= eta * gradient. -/
def Net.gradient_step {R : Type} [Sub R] [Mul R] (net : Net R) (gradient : List R)
    (eta : R) : Net R :=
  { net with weights := List.zipWith (fun w g => w - eta * g) net.weights gradient }

/-- fed.py Party: a local model plus the shared public key. -/
structure Party (R : Type) where
  name : String
  model : Net R
  pubkey : ℕ
  deriving DecidableEq

/-- fed.py Party.__init__. -/
def Party.init {R : Type} [Zero R] (name : String) (X : List (List R)) (y : List R)
    (pubkey : ℕ) : Party R :=
  ⟨name, Net.init X y, pubkey⟩

/-- fed.py Party.compute_partial_gradient: compute the local gradient, add
the scalar noise from get_noise to every coordinate, encrypt under the
public key. The random noise value and the encryption randomness base are
passed as arguments. -/
def Party.compute_partial_gradient {R : Type} [Add R] [Zero R] [Mul R] [Sub R] [Div R]
    [NatCast R] (p : Party R) (noise : R) (r : ℕ) : List (Ciphertext R) :=
  encrypt_vector p.pubkey ((p.model.compute_gradient).map (fun g => g + noise)) r

/-- fed.py hybrid_learning: the client names Hospital 1 .. Hospital n. -/
def make_names (n : ℕ) : List String :=
  (List.range n).map (fun i => "Hospital " ++ toString (i + 1))

/-- fed.py hybrid_learning, lines 246-249: the clients, built from
zip(names, X, y), all holding the server public key. -/
def make_clients {R : Type} [Zero R] (names : List String) (X : List (List (List R)))
    (y : List (List R)) (pk : ℕ) : List (Party R) :=
  List.zipWith (fun nm xy => Party.init nm xy.1 xy.2 pk) names (X.zip y)

/-- fed.py hybrid_learning, session setup, lines 236-249: build the server,
then the clients; the only failure point is key generation, which precedes
every Party instantiation. -/
def hybrid_setup {R : Type} [Zero R] (key_length n_clients : ℕ)
    (X : List (List (List R))) (y : List (List R)) :
    Except String (Server × List (Party R)) :=
  match Server.init key_length n_clients with
  | .error e => .error e
  | .ok server => .ok (server, make_clients (make_names n_clients) X y server.pubkey)

/-- fed.py hybrid_learning, lines 255-259: gather every client's
individually encrypted gradient vector into one list; this whole list is
what is then passed to Server.aggregate_gradients. Client i uses noise value
noises i and randomness base rs i. -/
def round_gradients {R : Type} [Add R] [Zero R] [Mul R] [Sub R] [Div R] [NatCast R]
    (clients : List (Party R)) (noises : List R) (rs : List ℕ) :
    List (List (Ciphertext R)) :=
  List.zipWith (fun c nr => Party.compute_partial_gradient c nr.1 nr.2) clients
    (noises.zip rs)

/-- fed.py hybrid_learning, lines 261-264: the plaintext aggregate of one
round, decrypted after the homomorphic division by n_clients. -/
def round_aggregate {R : Type} [Add R] [Zero R] [Mul R] [Sub R] [Div R] [NatCast R]
    (server : Server) (clients : List (Party R)) (noises : List R) (rs : List ℕ) :
    List R :=
  server.decrypt_gradient (server.aggregate_gradients (round_gradients clients noises rs))

/-- fed.py hybrid_learning, one iteration of the loop at lines 254-268:
every client takes the same gradient step with the decrypted aggregate. -/
def hybrid_round {R : Type} [Add R] [Zero R] [Mul R] [Sub R] [Div R] [NatCast R]
    (server : Server) (clients : List (Party R)) (noises : List R) (rs : List ℕ)
    (eta : R) : List (Party R) :=
  clients.map (fun c =>
    { c with model := c.model.gradient_step (round_aggregate server clients noises rs) eta })

/-- fed.py hybrid_learning: the training loop, k rounds. -/
def hybrid_iter {R : Type} [Add R] [Zero R] [Mul R] [Sub R] [Div R] [NatCast R]
    (server : Server) (noiseSeq : ℕ → List R) (rsSeq : ℕ → List ℕ) (eta : R)
    (clients : List (Party R)) : ℕ → List (Party R)
  | 0 => clients
  | k + 1 =>
      hybrid_round server (hybrid_iter server noiseSeq rsSeq eta clients k) (noiseSeq k)
        (rsSeq k) eta

/-- Modelled from the spec: the element-wise sum of a list of equal-length
plaintext vectors. -/
def elementwiseSum {R : Type} [Add R] : List (List R) → List R
  | [] => []
  | v :: vs => vs.foldl (fun acc g => List.zipWith (fun a b => a + b) acc g) v

/-- Modelled from the spec: the mean-squared-error gradient formula
(1/m) * Xt (X w - y) over the m rows of this party's own X only. -/
def specGradient (X : List (List ℚ)) (y w : List ℚ) : List ℚ :=
  ((List.range X.headI.length).map (fun j =>
    lsum (List.zipWith (fun row d => row.getD j 0 * d) X
      (List.zipWith (fun a b => a - b) (X.map (fun row => npDot row w)) y)))).map
    (fun v => (1 / (X.length : ℚ)) * v)

/-- Numbers of the floating model: a rational payload or a non-finite value
(NaN or an infinity), written FP.nan. Arithmetic propagates non-finite
values, and division by zero is non-finite, as with IEEE floats. -/
def FP : Type := Option ℚ

instance : DecidableEq FP := inferInstanceAs (DecidableEq (Option ℚ))

/-- The non-finite value of the floating model. -/
def FP.nan : FP := none

/-- A finite value of the floating model. -/
def FP.num (q : ℚ) : FP := some q

instance : Zero FP := ⟨some 0⟩

instance : Add FP :=
  ⟨fun a b => match a, b with
    | some x, some y => some (x + y)
    | _, _ => none⟩

instance : Sub FP :=
  ⟨fun a b => match a, b with
    | some x, some y => some (x - y)
    | _, _ => none⟩

instance : Mul FP :=
  ⟨fun a b => match a, b with
    | some x, some y => some (x * y)
    | _, _ => none⟩

instance : Div FP :=
  ⟨fun a b => match a, b with
    | some x, some y => if y = 0 then none else some (x / y)
    | _, _ => none⟩

instance : NatCast FP := ⟨fun n => some (n : ℚ)⟩

/-- Whether an Except value is a success. -/
def exceptIsOk {ε α : Type} (e : Except ε α) : Bool :=
  match e with
  | .ok _ => true
  | .error _ => false

/-- A throwaway party used as the default of list lookups. -/
def dummyParty : Party ℚ :=
  Party.init "" [] [] 0

/-- Three concrete parties, one row of one feature each, as created by the
session setup of hybrid_learning. -/
def clientsC1 : List (Party ℚ) :=
  make_clients (make_names 3) [[[1]], [[1]], [[1]]] [[1], [1], [1]] 1024

/-- Three concrete submitted encrypted gradient vectors. -/
def gsC3 : List (List (Ciphertext ℚ)) :=
  [[⟨1, 0⟩], [⟨2, 1⟩], [⟨3, 2⟩]]

/-- Two concrete submitted encrypted gradient vectors. -/
def gsC10 : List (List (Ciphertext ℚ)) :=
  [[⟨1, 0⟩], [⟨5, 1⟩]]

/-- Concrete training data for a two-party session. -/
def xC2 : List (List (List ℚ)) := [[[1]], [[2]]]

/-- Concrete targets for a two-party session. -/
def yC2 : List (List ℚ) := [[1], [2]]

/-- A concrete encrypted vector of length 10. -/
def vec10 : List (Ciphertext ℚ) := List.replicate 10 ⟨1, 0⟩

/-- A concrete encrypted vector of length 11. -/
def vec11 : List (Ciphertext ℚ) := List.replicate 11 ⟨1, 0⟩

/-- Three concrete parties with equal feature dimensionality, as created by
the session setup of hybrid_learning; all weights start at zero. -/
def clientsC4 : List (Party ℚ) :=
  make_clients (make_names 3) [[[1]], [[2]], [[3]]] [[1], [2], [3]] 1024

/-- Three concrete parties over the floating model, the first holding a
non-finite training value. -/
def clientsC9 : List (Party FP) :=
  make_clients (make_names 3) [[[FP.nan]], [[FP.num 1]], [[FP.num 1]]]
    [[FP.num 0], [FP.num 0], [FP.num 0]] 1024

lemma payload_cAdd_zipWith {R : Type} [Add R] (a b : List (Ciphertext R)) :
    (List.zipWith cAdd a b).map Ciphertext.payload =
      List.zipWith (fun x y => x + y) (a.map Ciphertext.payload)
        (b.map Ciphertext.payload) := by
  induction a generalizing b with
  | nil => simp
  | cons c a ih => cases b <;> simp [cAdd, ih]

lemma payload_foldl_cAdd {R : Type} [Add R] (vs : List (List (Ciphertext R)))
    (v : List (Ciphertext R)) :
    (vs.foldl (fun acc g => List.zipWith cAdd acc g) v).map Ciphertext.payload =
      (vs.map (fun g => g.map Ciphertext.payload)).foldl
        (fun acc g => List.zipWith (fun a b => a + b) acc g)
        (v.map Ciphertext.payload) := by
  induction vs generalizing v with
  | nil => rfl
  | cons g vs ih =>
      simp only [List.foldl_cons, List.map_cons]
      rw [ih, payload_cAdd_zipWith]

lemma payload_np_sum {R : Type} [Add R] (gs : List (List (Ciphertext R))) :
    (np_sum_axis0 gs).map Ciphertext.payload =
      elementwiseSum (gs.map (fun g => g.map Ciphertext.payload)) := by
  cases gs with
  | nil => rfl
  | cons v vs => exact payload_foldl_cAdd vs v

lemma decrypt_map_cDivNat {R : Type} [Div R] [NatCast R] (sk n : ℕ)
    (l : List (Ciphertext R)) :
    decrypt_vector sk (l.map (fun c => cDivNat c n)) =
      (l.map Ciphertext.payload).map (fun v => v / (n : R)) := by
  induction l with
  | nil => rfl
  | cons c l ih => exact congrArg₂ (· :: ·) rfl ih

/-- Claim C1: evaluation of the code at a concrete round with three parties:
the list handed to Server.aggregate_gradients at fed.py:261 holds all three
parties' individual encrypted gradient vectors (length 3, not a single
combined vector), and its entries are exactly the individual outputs of each
party's compute_partial_gradient; no party-to-party ring hand-off occurs in
hybrid_learning. -/
theorem server_receives_all_individual_ciphertexts :
    (round_gradients clientsC1 [0, 0, 0] [0, 1, 2]).length = 3 ∧
      round_gradients clientsC1 [0, 0, 0] [0, 1, 2] =
        [Party.compute_partial_gradient (clientsC1.getD 0 dummyParty) 0 0,
          Party.compute_partial_gradient (clientsC1.getD 1 dummyParty) 0 1,
          Party.compute_partial_gradient (clientsC1.getD 2 dummyParty) 0 2] :=
  ⟨rfl, rfl⟩

/-- Claim C2 (counterexample): constructing a session with two parties
succeeds; no InsufficientPartiesError check exists in the code. -/
theorem two_party_session_constructs :
    exceptIsOk (hybrid_setup 1024 2 xC2 yC2) = true := by
  decide

/-- Claim C2 (amended): no minimum-party check exists: with an accepted key
length, session construction succeeds for any number of parties, two
included, and yields one Party per supplied dataset; N = 3 succeeds
likewise. -/
theorem session_constructs_for_any_party_count (kl n : ℕ) (X : List (List (List ℚ)))
    (y : List (List ℚ)) (hkl : 1024 ≤ kl) (hX : X.length = n) (hy : y.length = n) :
    hybrid_setup kl n X y =
        .ok (⟨kl, kl, n⟩, make_clients (make_names n) X y kl) ∧
      (make_clients (make_names n) X y kl).length = n := by
  have hk : ¬ kl < 1024 := not_lt.mpr hkl
  constructor
  · simp [hybrid_setup, Server.init, generate_paillier_keypair, hk]
  · simp [make_clients, make_names, hX, hy]

/-- Claim C2 (witness): the amended claim at the concrete two-party data. -/
theorem session_constructs_witness :
    hybrid_setup 1024 2 xC2 yC2 =
        .ok (⟨1024, 1024, 2⟩, make_clients (make_names 2) xC2 yC2 1024) ∧
      (make_clients (make_names 2) xC2 yC2 1024).length = 2 :=
  session_constructs_for_any_party_count 1024 2 xC2 yC2 (by decide) rfl rfl

/-- Claim C5: summing encrypted vectors of unequal length fails with the
size-mismatch ValueError and nothing is truncated or padded; for equal
lengths the result is the element-wise homomorphic sum, whose payloads are
the element-wise sums of the payloads. -/
theorem sum_encrypted_vectors_spec (x y : List (Ciphertext ℚ)) :
    (x.length ≠ y.length →
        sum_encrypted_vectors x y = .error "Encrypted vectors must have the same size") ∧
      (x.length = y.length →
        sum_encrypted_vectors x y = .ok (List.zipWith cAdd x y) ∧
          (List.zipWith cAdd x y).map Ciphertext.payload =
            List.zipWith (fun a b => a + b) (x.map Ciphertext.payload)
              (y.map Ciphertext.payload)) := by
  constructor
  · intro h
    simp [sum_encrypted_vectors, h]
  · intro h
    exact ⟨by simp [sum_encrypted_vectors, h], payload_cAdd_zipWith x y⟩

/-- Claim C5 (witness): lengths 10 and 11 fail with the size-mismatch error;
two equal-length vectors sum element-wise. -/
theorem sum_encrypted_vectors_witness :
    sum_encrypted_vectors vec10 vec11 = .error "Encrypted vectors must have the same size" ∧
      sum_encrypted_vectors vec10 vec10 = .ok (List.zipWith cAdd vec10 vec10) :=
  ⟨(sum_encrypted_vectors_spec vec10 vec11).1 (by decide),
    ((sum_encrypted_vectors_spec vec10 vec10).2 rfl).1⟩

/-- Claim C6: key generation below 1024 bits fails with KeyGenerationError
and the session setup aborts before any Party is instantiated. -/
theorem keygen_rejects_weak_keys (kl n : ℕ) (X : List (List (List ℚ)))
    (y : List (List ℚ)) (h : kl < 1024) :
    generate_paillier_keypair kl = .error "KeyGenerationError" ∧
      hybrid_setup kl n X y = .error "KeyGenerationError" := by
  constructor
  · simp [generate_paillier_keypair, h]
  · simp [hybrid_setup, Server.init, generate_paillier_keypair, h]

/-- Claim C6 (witness): a 512-bit request is rejected. -/
theorem keygen_rejects_weak_keys_witness :
    generate_paillier_keypair 512 = .error "KeyGenerationError" ∧
      hybrid_setup 512 3 ([] : List (List (List ℚ))) [] = .error "KeyGenerationError" :=
  keygen_rejects_weak_keys 512 3 [] [] (by decide)

/-- Claim C8: encryption is probabilistic: with distinct randomness the same
plaintext yields distinct ciphertexts, and the two successive encryptions of
a repeated value inside one encrypt_vector call use fresh tokens and
differ. -/
theorem encryption_probabilistic (pk : ℕ) (v : ℚ) (r1 r2 r : ℕ) (h : r1 ≠ r2) :
    encrypt pk v r1 ≠ encrypt pk v r2 ∧
      (encrypt_vector pk [v, v] r).getD 0 ⟨0, 0⟩ ≠
        (encrypt_vector pk [v, v] r).getD 1 ⟨0, 0⟩ := by
  constructor
  · intro he
    exact h (congrArg Ciphertext.rand he)
  · intro he
    simp [encrypt_vector, encrypt, Ciphertext.mk.injEq] at he

/-- Claim C8 (witness): concrete distinct randomness, concrete value. -/
theorem encryption_probabilistic_witness :
    encrypt 7 (5 : ℚ) 0 ≠ encrypt 7 (5 : ℚ) 1 ∧
      (encrypt_vector 7 [(5 : ℚ), 5] 4).getD 0 ⟨0, 0⟩ ≠
        (encrypt_vector 7 [(5 : ℚ), 5] 4).getD 1 ⟨0, 0⟩ :=
  encryption_probabilistic 7 5 0 1 4 (by decide)

/-- Claim C3: for N >= 3 parties each contributing an encrypted gradient
vector, the plaintext the coordinator produces per round (the combined
ciphertext decrypted, division by N) is the element-wise average of the
submitted gradients, exactly in rational arithmetic. -/
theorem coordinator_average_correct (s : Server) (gs : List (List (Ciphertext ℚ)))
    (h3 : 3 ≤ s.n_clients) (hlen : gs.length = s.n_clients) :
    s.decrypt_gradient (s.aggregate_gradients gs) =
      (elementwiseSum (gs.map (fun g => g.map Ciphertext.payload))).map
        (fun v => v / (gs.length : ℚ)) := by
  rw [hlen]
  unfold Server.decrypt_gradient Server.aggregate_gradients
  rw [decrypt_map_cDivNat, payload_np_sum]

/-- Claim C3 (witness): three concrete submissions, three configured
clients. -/
theorem coordinator_average_correct_witness :
    Server.decrypt_gradient ⟨1024, 1024, 3⟩
        (Server.aggregate_gradients ⟨1024, 1024, 3⟩ gsC3) =
      (elementwiseSum (gsC3.map (fun g => g.map Ciphertext.payload))).map
        (fun v => v / (gsC3.length : ℚ)) :=
  coordinator_average_correct ⟨1024, 1024, 3⟩ gsC3 (by decide) (by decide)

/-- Claim C10: aggregate_gradients divides the element-wise sum of the k
submitted vectors by the n_clients fixed at construction, not by k; the
result is the true average scaled by k / n_clients. -/
theorem aggregate_divides_by_n_clients (s : Server) (gs : List (List (Ciphertext ℚ)))
    (hk : 0 < gs.length) :
    s.decrypt_gradient (s.aggregate_gradients gs) =
        (elementwiseSum (gs.map (fun g => g.map Ciphertext.payload))).map
          (fun v => v / (s.n_clients : ℚ)) ∧
      s.decrypt_gradient (s.aggregate_gradients gs) =
        ((elementwiseSum (gs.map (fun g => g.map Ciphertext.payload))).map
            (fun v => v / (gs.length : ℚ))).map
          (fun v => v * ((gs.length : ℚ) / (s.n_clients : ℚ))) := by
  have hk0 : (gs.length : ℚ) ≠ 0 := Nat.cast_ne_zero.mpr hk.ne'
  have hmain : s.decrypt_gradient (s.aggregate_gradients gs) =
      (elementwiseSum (gs.map (fun g => g.map Ciphertext.payload))).map
        (fun v => v / (s.n_clients : ℚ)) := by
    unfold Server.decrypt_gradient Server.aggregate_gradients
    rw [decrypt_map_cDivNat, payload_np_sum]
  refine ⟨hmain, ?_⟩
  rw [hmain, List.map_map]
  have hfun : (fun v => v / (s.n_clients : ℚ)) =
      ((fun v => v * ((gs.length : ℚ) / (s.n_clients : ℚ))) ∘
        fun v => v / (gs.length : ℚ)) := by
    funext a
    show a / (s.n_clients : ℚ) =
      a / (gs.length : ℚ) * ((gs.length : ℚ) / (s.n_clients : ℚ))
    rw [div_mul_div_comm, mul_comm a (gs.length : ℚ),
      mul_div_mul_left _ _ hk0]
  rw [hfun]

/-- Claim C10 (witness): two submissions against three configured clients. -/
theorem aggregate_divides_by_n_clients_witness :
    Server.decrypt_gradient ⟨1024, 1024, 3⟩
          (Server.aggregate_gradients ⟨1024, 1024, 3⟩ gsC10) =
        (elementwiseSum (gsC10.map (fun g => g.map Ciphertext.payload))).map
          (fun v => v / ((3 : ℕ) : ℚ)) ∧
      Server.decrypt_gradient ⟨1024, 1024, 3⟩
          (Server.aggregate_gradients ⟨1024, 1024, 3⟩ gsC10) =
        ((elementwiseSum (gsC10.map (fun g => g.map Ciphertext.payload))).map
            (fun v => v / (gsC10.length : ℚ))).map
          (fun v => v * ((gsC10.length : ℚ) / ((3 : ℕ) : ℚ))) :=
  aggregate_divides_by_n_clients ⟨1024, 1024, 3⟩ gsC10 (by decide)

lemma zipWith_mul_flip (delta : List ℚ) (X : List (List ℚ)) (j : ℕ) :
    List.zipWith (fun d row => d * row.getD j 0) delta X =
      List.zipWith (fun row d => row.getD j 0 * d) X delta := by
  induction delta generalizing X with
  | nil => cases X <;> rfl
  | cons d delta ih =>
      cases X with
      | nil => rfl
      | cons row X =>
          simp only [List.zipWith_cons_cons]
          rw [mul_comm, ih]

/-- Claim C7: compute_gradient returns exactly the mean-squared-error
gradient (1/m) * Xt (X w - y) over this party's own m rows, as a pure
function of that party's X, y and current weights w. -/
theorem compute_gradient_matches_spec (X : List (List ℚ)) (y w : List ℚ) :
    Net.compute_gradient ⟨X, y, w⟩ = specGradient X y w := by
  unfold Net.compute_gradient specGradient vecMatDot Net.predict
  dsimp only
  simp only [List.map_map]
  congr 1
  funext j
  simp only [Function.comp_apply]
  rw [zipWith_mul_flip, one_div_mul_eq_div]

lemma hybrid_round_weights (server : Server) (clients : List (Party ℚ)) (noises : List ℚ)
    (rs : List ℕ) (eta : ℚ) (w0 : List ℚ) (h : ∀ p ∈ clients, p.model.weights = w0) :
    ∀ p ∈ hybrid_round server clients noises rs eta,
      p.model.weights =
        List.zipWith (fun w g => w - eta * g) w0
          (round_aggregate server clients noises rs) := by
  intro p hp
  simp only [hybrid_round, List.mem_map] at hp
  obtain ⟨c, hc, rfl⟩ := hp
  show List.zipWith (fun w g => w - eta * g) c.model.weights
      (round_aggregate server clients noises rs) = _
  rw [h c hc]

lemma hybrid_iter_all_weights_eq (server : Server) (noiseSeq : ℕ → List ℚ)
    (rsSeq : ℕ → List ℕ) (eta : ℚ) (clients : List (Party ℚ)) (w0 : List ℚ)
    (h : ∀ p ∈ clients, p.model.weights = w0) (k : ℕ) :
    ∃ w, ∀ p ∈ hybrid_iter server noiseSeq rsSeq eta clients k, p.model.weights = w := by
  induction k with
  | zero => exact ⟨w0, h⟩
  | succ k ih =>
      obtain ⟨w, hw⟩ := ih
      exact ⟨_, hybrid_round_weights server _ (noiseSeq k) (rsSeq k) eta w hw⟩

/-- Claim C4: when all parties start from the same weight vector (as they
do, all zeros of the shared feature dimensionality), then after every round
of the training loop all parties' weight vectors are identical, because each
round applies the same decrypted aggregate with the same learning rate. -/
theorem weights_identical_every_round (server : Server) (noiseSeq : ℕ → List ℚ)
    (rsSeq : ℕ → List ℕ) (eta : ℚ) (clients : List (Party ℚ)) (w0 : List ℚ)
    (h : ∀ p ∈ clients, p.model.weights = w0) (k : ℕ) :
    ∀ p ∈ hybrid_iter server noiseSeq rsSeq eta clients k,
      ∀ q ∈ hybrid_iter server noiseSeq rsSeq eta clients k,
        p.model.weights = q.model.weights := by
  obtain ⟨w, hw⟩ := hybrid_iter_all_weights_eq server noiseSeq rsSeq eta clients w0 h k
  intro p hp q hq
  rw [hw p hp, hw q hq]

/-- Claim C4 (witness): three concrete zero-initialized parties, two rounds;
the first two parties end with the same weights. -/
theorem weights_identical_witness :
    ((hybrid_iter ⟨1024, 1024, 3⟩ (fun _ => [0, 0, 0]) (fun _ => [0, 1, 2]) 1 clientsC4
          2).getD 0 dummyParty).model.weights =
      ((hybrid_iter ⟨1024, 1024, 3⟩ (fun _ => [0, 0, 0]) (fun _ => [0, 1, 2]) 1 clientsC4
          2).getD 1 dummyParty).model.weights := by
  have hmem : ∀ (l : List (Party ℚ)) (i : ℕ), i < l.length → l.getD i dummyParty ∈ l := by
    intro l i hi
    rw [List.getD_eq_getElem l dummyParty hi]
    exact List.getElem_mem hi
  have hlen : (hybrid_iter (⟨1024, 1024, 3⟩ : Server) (fun _ => [0, 0, 0])
      (fun _ => [0, 1, 2]) 1 clientsC4 2).length = 3 := rfl
  exact weights_identical_every_round ⟨1024, 1024, 3⟩ (fun _ => [0, 0, 0])
    (fun _ => [0, 1, 2]) 1 clientsC4 [0] (by decide) 2 _
    (hmem _ 0 (by rw [hlen]; decide)) _ (hmem _ 1 (by rw [hlen]; decide))

lemma FP.mul_nan (a : FP) : a * FP.nan = FP.nan := by
  cases a <;> rfl

lemma FP.sub_nan (a : FP) : a - FP.nan = FP.nan := by
  cases a <;> rfl

lemma zipWith_getD {α β γ : Type} (f : α → β → γ) (a : List α) (b : List β) (i : ℕ)
    (da : α) (db : β) (dc : γ) (ha : i < a.length) (hb : i < b.length) :
    (List.zipWith f a b).getD i dc = f (a.getD i da) (b.getD i db) := by
  induction a generalizing b i with
  | nil => simp at ha
  | cons x a ih =>
      cases b with
      | nil => simp at hb
      | cons y b =>
          cases i with
          | zero => rfl
          | succ i =>
              simp only [List.zipWith_cons_cons, List.getD_cons_succ]
              exact ih b i (by simpa using ha) (by simpa using hb)

/-- Claim C9 (amended): no numeric-instability check exists: gradient_step
applies any gradient unconditionally, so a non-finite coordinate of the
decrypted aggregate turns the corresponding weight coordinate non-finite
instead of raising an error. -/
theorem gradient_step_applies_nonfinite (net : Net FP) (g : List FP) (eta : FP) (i : ℕ)
    (hi : i < net.weights.length) (hg : i < g.length) (h : g.getD i 0 = FP.nan) :
    (net.gradient_step g eta).weights.getD i 0 = FP.nan := by
  show (List.zipWith (fun w g => w - eta * g) net.weights g).getD i 0 = FP.nan
  rw [zipWith_getD (fun w g => w - eta * g) net.weights g i 0 0 0 hi hg, h, FP.mul_nan,
    FP.sub_nan]

/-- Claim C9 (witness): a concrete non-finite aggregate coordinate reaches
the weight vector through gradient_step. -/
theorem gradient_step_applies_nonfinite_witness :
    (Net.gradient_step ⟨[[FP.num 1]], [FP.num 0], [FP.num 0]⟩ [FP.nan]
        (FP.num 1)).weights.getD 0 0 = FP.nan :=
  gradient_step_applies_nonfinite ⟨[[FP.num 1]], [FP.num 0], [FP.num 0]⟩ [FP.nan]
    (FP.num 1) 0 (by decide) (by decide) (by decide)

/-- Claim C9 (counterexample): a full round at a concrete session where one
party's data holds a non-finite value completes normally, and every party's
weight vector becomes non-finite: nothing detects or surfaces the non-finite
gradient before it propagates into the weights. -/
theorem nonfinite_gradient_reaches_weights :
    (hybrid_round ⟨1024, 1024, 3⟩ clientsC9 [FP.num 0, FP.num 0, FP.num 0] [0, 1, 2]
        (FP.num 1)).map (fun p => p.model.weights) =
      [[FP.nan], [FP.nan], [FP.nan]] := by
  decide
